import Mathlib

/-!
Verification of the single-line numeric/boolean literal incrementer
(`digit_incrementing.py`) against its natural-language specification.

The Python module is shallowly embedded below.  Strings are `List Char`,
Python integers are `Int`/`ℕ`, and `decimal.Decimal` values are triples
(sign, coefficient, exponent).  The tokenizer of the Python standard
library is not re-implemented; instead every function that consumes its
output is parameterised by the token list (`List Tok`), exactly the data
`getnum` reads from `tokenize.generate_tokens`: the token type, its text
and its start/end columns.  Universal theorems quantify over arbitrary
token lists; concrete evaluations supply the token list CPython's
tokenizer produces for that line.
-/

namespace DigitInc

/-! ## Python string primitives -/

/-- Python slice `l[a:b]` for non-negative bounds (out-of-range indices clip). -/
def pySlice (l : List Char) (a b : ℕ) : List Char :=
  (l.take b).drop a

/-- Python `str.find(c)`: index of the first occurrence of `c`, or `-1`. -/
def pyFind (l : List Char) (c : Char) : Int :=
  let i := l.findIdx (fun x => x = c)
  if i = l.length then -1 else (i : Int)

/-- Python `str.count(c)` restricted to a single-character needle. -/
def pyCount (l : List Char) (c : Char) : ℕ :=
  (l.filter (fun x => x = c)).length

/-- Python `str.lstrip('+-')`. -/
def pyLstripSigns : List Char → List Char
  | [] => []
  | c :: r => if c = '+' ∨ c = '-' then pyLstripSigns r else c :: r

/-- Python `str.zfill(n)` applied to a string with no leading sign:
left-pad with `'0'` up to width `n`. -/
def pyZfill (l : List Char) (n : ℕ) : List Char :=
  List.replicate (n - l.length) '0' ++ l

/-- Python `list.insert(j, c)` with a possibly negative index `j`:
a negative index counts from the end and clips at 0; a non-negative
index clips at the length. -/
def pyInsert (l : List Char) (j : Int) (c : Char) : List Char :=
  let p : ℕ := if j < 0 then l.length - (-j).toNat else min j.toNat l.length
  l.take p ++ c :: l.drop p

/-- Lower-case ASCII letter test (`s in string.ascii_lowercase`). -/
def isLowerCh (c : Char) : Bool :=
  'a' ≤ c ∧ c ≤ 'z'

/-- Upper-case ASCII letter test. -/
def isUpperCh (c : Char) : Bool :=
  'A' ≤ c ∧ c ≤ 'Z'

/-- Python `str.lower` on one ASCII character. -/
def toLowerCh (c : Char) : Char :=
  if isUpperCh c then Char.ofNat (c.toNat + 32) else c

/-- Python `str.upper` on one ASCII character. -/
def toUpperCh (c : Char) : Char :=
  if isLowerCh c then Char.ofNat (c.toNat - 32) else c

/-- Python `str.lower`. -/
def pyLower (l : List Char) : List Char :=
  l.map toLowerCh

/-- Python `str.upper`. -/
def pyUpper (l : List Char) : List Char :=
  l.map toUpperCh

/-- Python `needle in haystack` substring test. -/
def pyContains (hay needle : List Char) : Bool :=
  (List.range (hay.length + 1)).any (fun i => needle.isPrefixOf (hay.drop i))

/-- Whether some character of `l` is a lower-case ASCII letter
(`any(s in string.ascii_lowercase for s in l)`). -/
def anyLower (l : List Char) : Bool :=
  l.any isLowerCh

/-! ## `digits_by_base` -/

/-- The module's `digits_by_base` table (`string.hexdigits` contains both
cases). -/
def digits_by_base (b : ℕ) : List Char :=
  if b = 2 then ['0', '1']
  else if b = 8 then ['0', '1', '2', '3', '4', '5', '6', '7']
  else if b = 10 then ['0', '1', '2', '3', '4', '5', '6', '7', '8', '9']
  else if b = 16 then
    ['0', '1', '2', '3', '4', '5', '6', '7'] ++
      ['8', '9', 'a', 'b', 'c', 'd', 'e', 'f'] ++
      ['A', 'B', 'C', 'D', 'E', 'F']
  else []

/-! ## Tokens and `getnum` -/

/-- Token kinds `getnum` distinguishes: `tokenize.NUMBER`, `tokenize.NAME`
and everything else. -/
inductive TokType where
  | NUMBER
  | NAME
  | OTHER
  deriving DecidableEq, Repr

/-- One token of the tokenizer output: type, text (`tok.string`) and
start/end columns on the single line. -/
structure Tok where
  type : TokType
  str : List Char
  startCol : ℕ
  endCol : ℕ
  deriving DecidableEq, Repr

/-- The keyword `True` as characters. -/
def trueL : List Char := ['T', 'r', 'u', 'e']

/-- The keyword `False` as characters. -/
def falseL : List Char := ['F', 'a', 'l', 's', 'e']

/-- Body of the token loop of `getnum` for one NUMBER token, lines 41-68 of
the source: base sniffing, the exponent split for base-10 literals, the
digit check at `index`, and the extension over an immediately preceding
minus sign.  Returns `none` for the function's `return None, None, None`. -/
def getnumNumber (src : List Char) (index : ℕ) (t : Tok) : Option (ℕ × ℕ × Option ℕ) :=
  let expr := t.str
  let lowered := pyLower expr
  let se :
      ℕ × ℕ × ℕ :=
    if pyContains lowered ['0', 'x'] then (t.startCol, t.endCol, 16)
    else if pyContains lowered ['0', 'o'] then (t.startCol, t.endCol, 8)
    else if pyContains lowered ['0', 'b'] then (t.startCol, t.endCol, 2)
    else
      if pyContains lowered ['e'] then
        let pos := lowered.findIdx (fun x => x = 'e')
        -- NB source compares the token-relative `pos` with the absolute `index`
        if pos < index then (t.startCol + pos + 1, t.endCol, 10)
        else (t.startCol, t.startCol + pos, 10)
      else (t.startCol, t.endCol, 10)
  let s := se.1
  let e := se.2.1
  let base := se.2.2
  if ¬ (digits_by_base base).contains (src.getD index ' ') ∨ (base ≠ 10 ∧ index = s) then
    none
  else
    let s' := if s ≠ 0 ∧ src.getD (s - 1) ' ' = '-' then s - 1 else s
    some (s', e, some base)

/-- `getnum(src, index)` (lines 26-74): scan the tokens in order; the first
token whose column span covers `index` and is a NUMBER decides the result
(possibly `none`); a NAME token spelling `True`/`False` yields a span with
base `none`; any other covering token is skipped.  The result `none`
models Python's `(None, None, None)`. -/
def getnum (src : List Char) (index : ℕ) : List Tok → Option (ℕ × ℕ × Option ℕ)
  | [] => none
  | t :: rest =>
    if t.startCol ≤ index ∧ index < t.endCol then
      if t.type = TokType.NUMBER then
        getnumNumber src index t
      else if t.type = TokType.NAME ∧ (t.str = trueL ∨ t.str = falseL) then
        some (t.startCol, t.endCol, none)
      else
        getnum src index rest
    else
      getnum src index rest

/-! ## Digit characters, integer rendering and parsing -/

/-- Value of one ASCII character as a digit (any base up to 36). -/
def digitValRaw (c : Char) : Option ℕ :=
  if '0' ≤ c ∧ c ≤ '9' then some (c.toNat - 48)
  else if 'a' ≤ c ∧ c ≤ 'z' then some (c.toNat - 87)
  else if 'A' ≤ c ∧ c ≤ 'Z' then some (c.toNat - 55)
  else none

/-- Value of one character as a digit of base `b` (case-insensitive). -/
def digitVal (b : ℕ) (c : Char) : Option ℕ :=
  match digitValRaw c with
  | some v => if v < b then some v else none
  | none => none

/-- Accumulating most-significant-first digit-string parser. -/
def parseDigitsAux (b : ℕ) : ℕ → List Char → Option ℕ
  | acc, [] => some acc
  | acc, c :: rest =>
    match digitVal b c with
    | none => none
    | some v => parseDigitsAux b (acc * b + v) rest

/-- Parse a non-empty digit string in base `b`. -/
def parseDigits (b : ℕ) (l : List Char) : Option ℕ :=
  if l.isEmpty then none else parseDigitsAux b 0 l

/-- Canonical lower-case character of the digit `d < 36`. -/
def digitCharLower (d : ℕ) : Char :=
  if d < 10 then Char.ofNat (48 + d) else Char.ofNat (87 + d)

/-- Fuel-driven little-endian base-`b` digit extraction (structural
recursion, so that concrete evaluations reduce inside the kernel); with
fuel at least `n` it agrees with `Nat.digits b n` for `b ≥ 2`. -/
def natDigitsRev (b : ℕ) : ℕ → ℕ → List ℕ
  | 0, _ => []
  | fuel + 1, n => if n = 0 then [] else n % b :: natDigitsRev b fuel (n / b)

/-- Most-significant-first rendering of `n` in base `b`, lower case,
`"0"` for zero — the digit part of Python's `bin`/`oct`/`hex`/`str`. -/
def renderNat (b n : ℕ) : List Char :=
  if n = 0 then ['0'] else (natDigitsRev b (n + 1) n).reverse.map digitCharLower

/-- The number of decimal digits of a non-zero coefficient (0 for zero;
the rounding step that uses this is only reached with a non-zero sum). -/
def decNumDigits (c : ℕ) : ℕ :=
  (natDigitsRev 10 (c + 1) c).length

/-- Python `bin(v)`, including the `-0b` form for negative values. -/
def pyBin (v : Int) : List Char :=
  if v < 0 then '-' :: '0' :: 'b' :: renderNat 2 v.natAbs
  else '0' :: 'b' :: renderNat 2 v.toNat

/-- Python `oct(v)`. -/
def pyOct (v : Int) : List Char :=
  if v < 0 then '-' :: '0' :: 'o' :: renderNat 8 v.natAbs
  else '0' :: 'o' :: renderNat 8 v.toNat

/-- Python `hex(v)`. -/
def pyHex (v : Int) : List Char :=
  if v < 0 then '-' :: '0' :: 'x' :: renderNat 16 v.natAbs
  else '0' :: 'x' :: renderNat 16 v.toNat

/-- Python `str(v)` for an integer `v`. -/
def intStr (v : Int) : List Char :=
  if v < 0 then '-' :: renderNat 10 v.natAbs else renderNat 10 v.toNat

/-- `ast.literal_eval(expr)` restricted to the integer literals this program
feeds it: an optional sign, then either a `0b`/`0o`/`0x`-prefixed digit run
or a plain decimal digit run, with underscore separators.  (The model is
lenient about underscore placement and leading zeros, which CPython's
grammar rejects; `increment_at_index` only reaches this call with literal
text the tokenizer accepted.) -/
def parseIntLit (l : List Char) : Option Int :=
  let sn : Bool × List Char :=
    match l with
    | '-' :: r => (true, r)
    | '+' :: r => (false, r)
    | _ => (false, l)
  let l2 := sn.2.filter (fun c => c ≠ '_')
  let mag : Option ℕ :=
    match l2 with
    | '0' :: c :: rest =>
      if c = 'x' ∨ c = 'X' then parseDigits 16 rest
      else if c = 'o' ∨ c = 'O' then parseDigits 8 rest
      else if c = 'b' ∨ c = 'B' then parseDigits 2 rest
      else parseDigits 10 l2
    | _ => parseDigits 10 l2
  mag.map (fun m => if sn.1 then -(m : Int) else (m : Int))

/-! ## The `decimal.Decimal` fragment the program uses -/

/-- A finite `decimal.Decimal` value: sign, coefficient and exponent, as in
`Decimal.as_tuple()`. -/
structure PyDec where
  neg : Bool
  coeff : ℕ
  exp : Int
  deriving DecidableEq, Repr

/-- Split a character list at the first character satisfying `p`; the second
component is `none` when no such character occurs. -/
def splitFirst (p : Char → Bool) : List Char → List Char × Option (List Char)
  | [] => ([], none)
  | c :: r =>
    if p c then ([], some r)
    else
      let q := splitFirst p r
      (c :: q.1, q.2)

/-- Digit-string parser that accepts the empty string (as value 0) but still
rejects non-digit characters. -/
def parseDigitsOrEmpty (b : ℕ) (l : List Char) : Option ℕ :=
  parseDigitsAux b 0 l

/-- The `Decimal(str)` constructor on the finite numeric strings this program
produces: optional sign, digit run with at most one point, optional
exponent part, underscore separators allowed.  `none` models the
`InvalidOperation` the constructor raises on malformed input.  (Underscore
placement is modelled leniently; `NaN`/`Infinity` spellings are rejected,
as the program never produces them.) -/
def pyDecParse (l : List Char) : Option PyDec :=
  let sn : Bool × List Char :=
    match l with
    | '-' :: r => (true, r)
    | '+' :: r => (false, r)
    | _ => (false, l)
  let me0 := splitFirst (fun c => c = 'e' ∨ c = 'E') sn.2
  let expVal : Option Int :=
    match me0.2 with
    | none => some 0
    | some ec =>
      let esn : Bool × List Char :=
        match ec with
        | '-' :: r => (true, r)
        | '+' :: r => (false, r)
        | _ => (false, ec)
      match parseDigits 10 (esn.2.filter (fun c => c ≠ '_')) with
      | none => none
      | some n => some (if esn.1 then -(n : Int) else (n : Int))
  match expVal with
  | none => none
  | some ev =>
    let m := me0.1.filter (fun c => c ≠ '_')
    let ipf := splitFirst (fun c => c = '.') m
    let fp := ipf.2.getD []
    if fp.any (fun c => c = '.') then none
    else if (ipf.1 ++ fp).isEmpty then none
    else
      match parseDigitsOrEmpty 10 (ipf.1 ++ fp) with
      | none => none
      | some co => some ⟨sn.1, co, ev - fp.length⟩

/-- Context addition with precision `prec`: align exponents, add exactly,
then round the coefficient to at most `prec` digits, half-even, as the
decimal arithmetic specification prescribes.  A zero result is positive
unless both operands are negative (ROUND_HALF_EVEN). -/
def decAdd (prec : ℕ) (a b : PyDec) : PyDec :=
  let m := min a.exp b.exp
  let ia : Int := (if a.neg then -(a.coeff : Int) else (a.coeff : Int)) * 10 ^ (a.exp - m).toNat
  let ib : Int := (if b.neg then -(b.coeff : Int) else (b.coeff : Int)) * 10 ^ (b.exp - m).toNat
  let sm := ia + ib
  if sm = 0 then ⟨a.neg && b.neg, 0, m⟩
  else
    let c := sm.natAbs
    let nd := decNumDigits c
    if nd ≤ prec then ⟨decide (sm < 0), c, m⟩
    else
      let k := nd - prec
      let p := 10 ^ k
      let q := c / p
      let r := c % p
      let q' := if p / 2 < r ∨ (r = p / 2 ∧ q % 2 = 1) then q + 1 else q
      if decNumDigits q' ≤ prec then ⟨decide (sm < 0), q', m + k⟩
      else ⟨decide (sm < 0), q' / 10, m + (k : Int) + 1⟩

/-- `Decimal(10) ** e` under precision `prec`: the result is exact; its
exponent is the ideal exponent 0 when the expanded power fits in `prec`
digits, and the compact `1E+e` form otherwise (always compact for
negative `e`). -/
def decPow10 (prec : ℕ) (e : Int) : PyDec :=
  if 0 ≤ e then
    if e.toNat + 1 ≤ prec then ⟨false, 10 ^ e.toNat, 0⟩ else ⟨false, 1, e⟩
  else ⟨false, 1, e⟩

/-- Multiplication of a decimal by the unit increment `+1`/`-1`. -/
def decTimesUnit (inc : Int) (d : PyDec) : PyDec :=
  ⟨(decide (inc < 0)) != d.neg, d.coeff, d.exp⟩

/-- Whether `value < 0` holds for a decimal (negative and non-zero). -/
def decIsNeg (d : PyDec) : Bool :=
  d.neg && decide (d.coeff ≠ 0)

/-- The digits of a coefficient, `"0"` for zero. -/
def natDec (n : ℕ) : List Char :=
  renderNat 10 n

/-- Python `'%+d' % n`: decimal rendering with a mandatory sign. -/
def intSignedStr (n : Int) : List Char :=
  if n < 0 then '-' :: natDec n.natAbs else '+' :: natDec n.toNat

/-- `str(value)` for a finite decimal, following the to-scientific-string
algorithm of `Decimal.__str__`: plain notation when the exponent is at
most 0 and the adjusted exponent is at least -6, scientific notation
otherwise. -/
def decStr (d : PyDec) : List Char :=
  let ds := natDec d.coeff
  let leftdigits : Int := d.exp + ds.length
  let dotplace : Int := if d.exp ≤ 0 ∧ -6 < leftdigits then leftdigits else 1
  let ipfp : List Char × List Char :=
    if dotplace ≤ 0 then (['0'], ['.'] ++ List.replicate (-dotplace).toNat '0' ++ ds)
    else if (ds.length : Int) ≤ dotplace then
      (ds ++ List.replicate (dotplace.toNat - ds.length) '0', [])
    else (ds.take dotplace.toNat, ['.'] ++ ds.drop dotplace.toNat)
  let exppart : List Char :=
    if leftdigits = dotplace then [] else 'E' :: intSignedStr (leftdigits - dotplace)
  (if d.neg then ['-'] else []) ++ ipfp.1 ++ ipfp.2 ++ exppart

/-! ## Ambient state: the module decimal context and the active context -/

/-- The mutable ambient state the program touches: the module-owned
`decimal_context.prec`, and which context object is the thread's active
decimal context (`getcontext`/`setcontext`).  Context identities are
abstract numerals; the module's own context is `moduleCtxId`. -/
structure PyState where
  modulePrec : ℕ
  activeCtx : ℕ
  deriving DecidableEq, Repr

/-- Identity of the module-level `decimal_context` object. -/
def moduleCtxId : ℕ := 0

/-! ## `increment_at_index` -/

/-- Result of the literal-specific part of `increment_at_index` (lines
92-140): an exception, or the raw result text plus the computed positional
exponent and the precision in effect during any decimal arithmetic. -/
inductive BranchOut where
  | err
  | ok (result : List Char) (exponent : Int) (precUsed : ℕ)
  deriving DecidableEq, Repr

/-- The precision made current before a decimal computation (lines
100-101): raised to `len(expr) + 5` exactly when `len(expr)` exceeds the
stored precision. -/
def decPrecUsed (st : PyState) (expr : List Char) : ℕ :=
  if st.modulePrec < expr.length then expr.length + 5 else st.modulePrec

/-- The positional exponent of the base-10 branch (lines 93-99): the
decimal point found in `expr` at line position `start + find`, the
`start - 1` sentinel replaced by `end`; digits left of the point weigh
`point - index - underscores - 1`, digits at or right of it weigh
`point - index + underscores` (note both slices index the literal's text
with line-absolute positions, as the source does). -/
def decExponent (expr : List Char) (index s e : ℕ) : Int :=
  let dp0 : Int := (s : Int) + pyFind expr '.'
  let dp : Int := if dp0 = (s : Int) - 1 then (e : Int) else dp0
  if (index : Int) < dp then
    dp - index - (pyCount (pySlice expr index dp.toNat) '_' : ℕ) - 1
  else dp - index + (pyCount (pySlice expr dp.toNat index) '_' : ℕ)

/-- The decimal arithmetic and rendering of the base-10 branch (lines
105-119): add `increment * 10 ** exponent`, render, re-pad leading zeros
when the original digit run began with `0`, restore a redundant `+`. -/
def decResultText (prec : ℕ) (expr : List Char) (inc : Int) (exponent : Int)
    (d0 : PyDec) : List Char :=
  let value := decAdd prec d0 (decTimesUnit inc (decPow10 prec exponent))
  let result0 := decStr value
  let digitsOnly := (pyLstripSigns expr).filter (fun c => c ≠ '_')
  let result1 :=
    if digitsOnly.head? = some '0' then
      let r := pyZfill (pyLstripSigns result0) digitsOnly.length
      if decIsNeg value then '-' :: r else r
    else result0
  if expr.head? = some '+' ∧ result1.head? ≠ some '-' then '+' :: result1 else result1

/-- The base-10 branch (lines 92-119).  The state swap models lines
103-107: the module context becomes active for the computation and the
original context is restored afterwards; a parse failure models the
`InvalidOperation` the `Decimal` constructor raises *after* the swap, so
the error state keeps the module context active, as CPython would. -/
def decBranch (st : PyState) (expr : List Char) (index s e : ℕ) (inc : Int) :
    BranchOut × PyState :=
  match pyDecParse expr with
  | none => (BranchOut.err, ⟨decPrecUsed st expr, moduleCtxId⟩)
  | some d0 =>
    (BranchOut.ok (decResultText (decPrecUsed st expr) expr inc (decExponent expr index s e) d0)
      (decExponent expr index s e) (decPrecUsed st expr),
     ⟨decPrecUsed st expr, st.activeCtx⟩)

/-- The positional exponent of the integer branch (line 127); note the
slice `expr[index:]` uses the line-absolute `index`, as the source does. -/
def intExponent (expr : List Char) (index e : ℕ) : Int :=
  (e : Int) - index - (pyCount (expr.drop index) '_' : ℕ) - 1

/-- The base-specific rendering of the integer branch (lines 129-140):
prefix kept from the original text, digits from `bin`/`oct`/`hex`, hex
digits lower-cased exactly when the characters after the original prefix
contain a lower-case letter.  (The final `else` is line 140's unreachable
`str(value)`.) -/
def intRender (b : ℕ) (expr : List Char) (v' : Int) : List Char :=
  if b = 2 then expr.take 2 ++ (pyBin v').drop 2
  else if b = 8 then expr.take 2 ++ (pyOct v').drop 2
  else if b = 16 then
    expr.take 2 ++
      (if anyLower (expr.drop 2) then pyLower ((pyHex v').drop 2)
       else pyUpper ((pyHex v').drop 2))
  else intStr v'

/-- The integer branch (lines 126-140).  A negative exponent would make
`base ** exponent` a Python float and the subsequent rendering raise, so
it is an error outcome; it cannot occur for the literal text the program
slices out of the line. -/
def intBranch (st : PyState) (expr : List Char) (b : ℕ) (index e : ℕ) (inc : Int) :
    BranchOut × PyState :=
  match parseIntLit expr with
  | none => (BranchOut.err, st)
  | some v =>
    if intExponent expr index e < 0 then (BranchOut.err, st)
    else
      (BranchOut.ok (intRender b expr (v + inc * (b : Int) ^ (intExponent expr index e).toNat))
        (intExponent expr index e) st.modulePrec, st)

/-- Lines 92-140 of the source: the base-10 decimal branch, the boolean
toggles, and the prefixed-integer branch.  A base of `none` (a boolean
span whose text is not `True`/`False`, possible only with a token list no
tokenizer produces) raises in Python either at `literal_eval` or at
`None ** exponent`, hence `err`. -/
def runBranch (st : PyState) (expr : List Char) (bopt : Option ℕ) (index s e : ℕ)
    (inc : Int) : BranchOut × PyState :=
  if bopt = some 10 then decBranch st expr index s e inc
  else if expr = trueL then (BranchOut.ok falseL 0 st.modulePrec, st)
  else if expr = falseL then (BranchOut.ok trueL 0 st.modulePrec, st)
  else if bopt = none then (BranchOut.err, st)
  else intBranch st expr (bopt.getD 0) index e inc

/-- Enumeration worker for `underscoreNegIdx`: position `i` runs over the
characters, `len` is the whole literal's length. -/
def underscoreNegIdxAux (len : ℕ) : ℕ → List Char → List Int
  | _, [] => []
  | i, c :: r =>
    if c = '_' then ((i : Int) - (len : Int)) :: underscoreNegIdxAux len (i + 1) r
    else underscoreNegIdxAux len (i + 1) r

/-- Negative from-the-end positions of the underscores of `expr`
(line 153 of the source). -/
def underscoreNegIdx (expr : List Char) : List Int :=
  underscoreNegIdxAux expr.length 0 expr

/-- Whether `result[0]` is a sign character (`result` is never empty in the
program; the model answers `false` for the empty list). -/
def headIsSign (l : List Char) : Bool :=
  match l.head? with
  | some c => c = '+' ∨ c = '-'
  | none => false

/-- The right-to-left underscore re-insertion loop (lines 156-159): an
underscore is re-inserted at its from-the-end position unless that would
put it inside the prefix/sign region. -/
def insertLoop (pfx : ℕ) : List Char → List Int → List Char
  | arr, [] => arr
  | arr, i :: rest =>
    let arr' := if (pfx : Int) < i + (arr.length : Int) + 1 then pyInsert arr (i + 1) '_' else arr
    insertLoop pfx arr' rest

/-- Every intermediate value of a successful transformation, named as in
the source: the matched span and base, the literal text `expr`, the
positional exponent, the precision used for decimal arithmetic, the raw
rendered result, the result after underscore re-insertion, the
prefix length, the unclamped and final cursor offsets, and the new line. -/
structure IncDetails where
  start : ℕ
  stop : ℕ
  base : Option ℕ
  expr : List Char
  exponent : Int
  precUsed : ℕ
  rawResult : List Char
  resultText : List Char
  prefixLen : ℕ
  rawOffset : Int
  offset : Int
  line : List Char
  deriving DecidableEq, Repr

/-- The prefix length of the result (lines 144-149): 1 for a leading sign
plus 2 for a binary/octal/hex base prefix. -/
def prefixLenOf (result : List Char) (bopt : Option ℕ) : ℕ :=
  (if headIsSign result then 1 else 0) +
    (if bopt = some 2 ∨ bopt = some 8 ∨ bopt = some 16 then 2 else 0)

/-- The result text after underscore re-insertion (lines 151-161). -/
def resultTextOf (expr result : List Char) (bopt : Option ℕ) : List Char :=
  insertLoop (prefixLenOf result bopt) result (underscoreNegIdx expr).reverse

/-- The cursor-offset computation with its clamp (lines 163-165). -/
def clampOffset (index s : ℕ) (raw : Int) (pfx : ℕ) : Int :=
  if (index : Int) + raw - s < pfx then (s : Int) - index + pfx else raw

/-- Lines 144-166 of the source: prefix length, underscore re-insertion,
offset computation with the clamp, and the splice of the result back into
the line. -/
def finish (src expr result : List Char) (s e : ℕ) (bopt : Option ℕ) (index : ℕ)
    (exponent : Int) (precUsed : ℕ) : IncDetails :=
  { start := s, stop := e, base := bopt, expr := expr, exponent := exponent,
    precUsed := precUsed, rawResult := result,
    resultText := resultTextOf expr result bopt,
    prefixLen := prefixLenOf result bopt,
    rawOffset := ((resultTextOf expr result bopt).length : Int) - (expr.length : Int),
    offset := clampOffset index s
      (((resultTextOf expr result bopt).length : Int) - (expr.length : Int))
      (prefixLenOf result bopt),
    line := src.take s ++ resultTextOf expr result bopt ++ src.drop e }

/-- Overall outcome of one call: no literal found (return `(src, 0)`), an
uncaught exception, or a successful transformation. -/
inductive IncOutcome where
  | noop
  | err
  | done (d : IncDetails)
  deriving DecidableEq, Repr

/-- `increment_at_index(src, index, increment)` (lines 77-166), with all
intermediate values exposed.  The token list parameterises the tokenizer
output for `src`. -/
def increment_full (st : PyState) (src : List Char) (toks : List Tok) (index : ℕ)
    (inc : Int) : IncOutcome × PyState :=
  match src with
  | [] => (IncOutcome.noop, st)
  | c :: r =>
    match getnum (c :: r) index toks with
    | none => (IncOutcome.noop, st)
    | some (s, e, bopt) =>
      match runBranch st (pySlice (c :: r) s e) bopt index s e inc with
      | (BranchOut.err, st') => (IncOutcome.err, st')
      | (BranchOut.ok result exponent precUsed, st') =>
        (IncOutcome.done (finish (c :: r) (pySlice (c :: r) s e) result s e bopt index
          exponent precUsed), st')

/-- The function's public face: the new line and the cursor offset, or
`none` for an uncaught exception. -/
def increment_at_index (st : PyState) (src : List Char) (toks : List Tok) (index : ℕ)
    (inc : Int) : Option (List Char × Int) × PyState :=
  match increment_full st src toks index inc with
  | (IncOutcome.noop, st') => (some (src, 0), st')
  | (IncOutcome.err, st') => (none, st')
  | (IncOutcome.done d, st') => (some (d.line, d.offset), st')

/-! ## Observation helpers and specification-side definitions -/

/-- The positional exponent a successful transformation used. -/
def outcomeExponent (o : IncOutcome) : Option Int :=
  match o with
  | IncOutcome.done d => some d.exponent
  | _ => none

/-- The decimal precision in effect during a successful transformation. -/
def outcomePrec (o : IncOutcome) : Option ℕ :=
  match o with
  | IncOutcome.done d => some d.precUsed
  | _ => none

/-- Modelled from the spec: the weight exponent of the digit touched at
`index` in a literal (sub-)span ending at `e`, namely
`e - index - 1` minus the number of underscores strictly between the
touched position and the span's end, counted over the line's characters. -/
def specWeight (src : List Char) (index e : ℕ) : Int :=
  (e : Int) - (index : Int) - 1 - (pyCount (pySlice src index e) '_' : ℕ)

/-- Count of base-10 digit characters in a literal's text. -/
def decDigitCount (l : List Char) : ℕ :=
  (l.filter (fun c => (digitVal 10 c).isSome)).length

/-- Value equality of two finite decimals (align exponents and compare the
signed coefficients). -/
def decValEq (a b : PyDec) : Bool :=
  decide
    ((if a.neg then -(a.coeff : Int) else (a.coeff : Int)) *
        10 ^ (a.exp - min a.exp b.exp).toNat =
      (if b.neg then -(b.coeff : Int) else (b.coeff : Int)) *
        10 ^ (b.exp - min a.exp b.exp).toNat)

/-- The decimal value of the literal the locator matches at `i`, if any. -/
def literalValueAt (line : List Char) (toks : List Tok) (i : ℕ) : Option PyDec :=
  match getnum line i toks with
  | some (s, e, _) => pyDecParse (pySlice line s e)
  | none => none

/-- The marker characters of a base prefix. -/
def markerChars (b : ℕ) : List Char :=
  if b = 2 then ['b', 'B'] else if b = 8 then ['o', 'O'] else if b = 16 then ['x', 'X'] else []

/-- The raw result the integer branch produces for new magnitude `n`:
the first two characters of the original literal followed by the digits of
`n`, case-adjusted for base 16. -/
def intResult (b : ℕ) (expr : List Char) (n : ℕ) : List Char :=
  expr.take 2 ++
    (if b = 16 then
      (if anyLower (expr.drop 2) then pyLower (renderNat 16 n) else pyUpper (renderNat 16 n))
     else renderNat b n)

/-- Boolean `no upper-case letter occurs in l`. -/
def noUpperIn (l : List Char) : Bool :=
  l.all (fun c => !isUpperCh c)

/-- Boolean `no lower-case letter occurs in l`. -/
def noLowerIn (l : List Char) : Bool :=
  l.all (fun c => !isLowerCh c)

/-- Boolean `every character of a is a character of b or an underscore`. -/
def charsFrom (a b : List Char) : Bool :=
  a.all (fun c => decide (c ∈ b) || decide (c = '_'))

/-! ## Inversion lemmas -/

/-- A successful transformation decomposes into a located literal, an `ok`
branch result and the shared finishing step. -/
lemma increment_done_shape (st st' : PyState) (src : List Char) (toks : List Tok)
    (index : ℕ) (inc : Int) (d : IncDetails)
    (h : increment_full st src toks index inc = (IncOutcome.done d, st')) :
    ∃ s e bopt result exponent precUsed,
      getnum src index toks = some (s, e, bopt) ∧
      runBranch st (pySlice src s e) bopt index s e inc =
        (BranchOut.ok result exponent precUsed, st') ∧
      d = finish src (pySlice src s e) result s e bopt index exponent precUsed := by
  unfold increment_full at h
  split at h
  · simp at h
  · rename_i c r
    split at h
    · simp at h
    · rename_i s e bopt hg
      split at h
      · simp at h
      · rename_i result exponent precUsed st₁ hr
        injection h with hA hB
        injection hA with hC
        subst hB
        exact ⟨s, e, bopt, result, exponent, precUsed, hg, hr, hC.symm⟩

/-- The state after an `ok` branch: the active context is restored, the
module precision equals the recorded precision, and it never decreased. -/
lemma runBranch_ok_state (st st' : PyState) (expr : List Char) (bopt : Option ℕ)
    (index s e : ℕ) (inc : Int) (r : List Char) (ex : Int) (p : ℕ)
    (h : runBranch st expr bopt index s e inc = (BranchOut.ok r ex p, st')) :
    st'.activeCtx = st.activeCtx ∧ st'.modulePrec = p ∧ st.modulePrec ≤ p := by
  have hprec : st.modulePrec ≤ decPrecUsed st expr := by
    unfold decPrecUsed; split <;> omega
  unfold runBranch at h
  split at h
  · unfold decBranch at h
    split at h
    · simp at h
    · injection h with hA hB
      injection hA with hA1 hA2 hA3
      subst hB hA3
      exact ⟨rfl, rfl, hprec⟩
  · split at h
    · injection h with hA hB
      injection hA with hA1 hA2 hA3
      subst hB hA3
      exact ⟨rfl, rfl, le_refl _⟩
    · split at h
      · injection h with hA hB
        injection hA with hA1 hA2 hA3
        subst hB hA3
        exact ⟨rfl, rfl, le_refl _⟩
      · split at h
        · simp at h
        · unfold intBranch at h
          split at h
          · simp at h
          · split at h
            · simp at h
            · injection h with hA hB
              injection hA with hA1 hA2 hA3
              subst hB hA3
              exact ⟨rfl, rfl, le_refl _⟩

/-- The module precision never decreases across the branch computation,
whatever its outcome. -/
lemma runBranch_prec_mono (st : PyState) (expr : List Char) (bopt : Option ℕ)
    (index s e : ℕ) (inc : Int) :
    st.modulePrec ≤ (runBranch st expr bopt index s e inc).2.modulePrec := by
  have hprec : st.modulePrec ≤ decPrecUsed st expr := by
    unfold decPrecUsed; split <;> omega
  unfold runBranch
  split
  · unfold decBranch
    split
    · exact hprec
    · exact hprec
  · split
    · exact le_refl _
    · split
      · exact le_refl _
      · split
        · exact le_refl _
        · unfold intBranch
          split
          · exact le_refl _
          · split
            · exact le_refl _
            · exact le_refl _


/-- Precision bookkeeping of the base-10 branch: the precision used is at
least the literal's length, is exactly `length + 5` when the length
exceeded the stored precision, and is the stored precision otherwise. -/
lemma runBranch_ok_prec10 (st st' : PyState) (expr : List Char)
    (index s e : ℕ) (inc : Int) (r : List Char) (ex : Int) (p : ℕ)
    (h : runBranch st expr (some 10) index s e inc = (BranchOut.ok r ex p, st')) :
    expr.length ≤ p ∧ (st.modulePrec < expr.length → p = expr.length + 5) ∧
      (expr.length ≤ st.modulePrec → p = st.modulePrec) := by
  unfold runBranch at h
  rw [if_pos rfl] at h
  unfold decBranch at h
  split at h
  · simp at h
  · injection h with hA hB
    injection hA with hA1 hA2 hA3
    subst hA3
    unfold decPrecUsed
    refine ⟨?_, ?_, ?_⟩ <;> [skip; intro hlt; intro hle] <;> split <;> omega

/-- A `noop` outcome leaves the ambient state untouched. -/
lemma increment_noop_state (st st' : PyState) (src : List Char) (toks : List Tok)
    (index : ℕ) (inc : Int)
    (h : increment_full st src toks index inc = (IncOutcome.noop, st')) : st' = st := by
  unfold increment_full at h
  split at h
  · injection h with hA hB; exact hB.symm
  · split at h
    · injection h with hA hB; exact hB.symm
    · split at h
      · simp at h
      · simp at h

/-- The module precision never decreases across a call, whatever the
outcome. -/
lemma increment_prec_mono (st st' : PyState) (src : List Char) (toks : List Tok)
    (index : ℕ) (inc : Int) (o : IncOutcome)
    (h : increment_full st src toks index inc = (o, st')) :
    st.modulePrec ≤ st'.modulePrec := by
  unfold increment_full at h
  split at h
  · injection h with hA hB; exact hB ▸ le_refl _
  · rename_i c r
    split at h
    · injection h with hA hB; exact hB ▸ le_refl _
    · rename_i s e bopt hg
      split at h
      · rename_i st₁ hr
        have hm := runBranch_prec_mono st (pySlice (c :: r) s e) bopt index s e inc
        rw [hr] at hm
        injection h with hA hB
        exact hB ▸ hm
      · rename_i result exponent precUsed st₁ hr
        have hm := runBranch_prec_mono st (pySlice (c :: r) s e) bopt index s e inc
        rw [hr] at hm
        injection h with hA hB
        exact hB ▸ hm

/-! ## Claim C1 -/

/-- Token list CPython's tokenizer produces for the line `x=1e5`. -/
def toksXe : List Tok :=
  [⟨TokType.NAME, ['x'], 0, 1⟩, ⟨TokType.OTHER, ['='], 1, 2⟩,
   ⟨TokType.NUMBER, ['1', 'e', '5'], 2, 5⟩, ⟨TokType.OTHER, [], 5, 6⟩]

/-- C1 (code_bug): the claim says the span the locator returns for a
base-10 literal with an exponent marker always contains the requested
index.  On the line `x=1e5` with the cursor at index 2 (the digit `1` of
the significand), `getnum` compares the token-relative marker position
`pos = 1` with the line-absolute `index = 2` and wrongly selects the
exponent sub-span `[4, 5)`, which does not contain index 2. -/
theorem getnum_exponent_span_misses_index :
    getnum (("x=1e5").toList) 2 toksXe = some (4, 5, some 10) ∧ ¬ (4 ≤ 2) := by
  decide

/-! ## Claim C2 -/

/-- C2 (confirmed): on an empty line, or whenever the locator finds no
literal covering the index, the call returns the line unchanged with
cursor offset 0 — a successful no-op, never an exception — and the
ambient state is untouched. -/
theorem increment_noop_confirmed (st : PyState) (src : List Char) (toks : List Tok)
    (index : ℕ) (inc : Int)
    (h : src = [] ∨ getnum src index toks = none) :
    increment_at_index st src toks index inc = (some (src, 0), st) := by
  rcases h with rfl | hg
  · simp [increment_at_index, increment_full]
  · cases src with
    | nil => simp [increment_at_index, increment_full]
    | cons c r => simp only [increment_at_index, increment_full, hg]

/-- Token list for the line `a` (a name, no literal). -/
def toksW2 : List Tok :=
  [⟨TokType.NAME, ['a'], 0, 1⟩, ⟨TokType.OTHER, [], 1, 2⟩]

/-- Witness for C2 at the concrete line `a`, index 0. -/
theorem increment_noop_witness :
    increment_at_index ⟨28, 7⟩ ['a'] toksW2 0 1 = (some (['a'], 0), ⟨28, 7⟩) :=
  increment_noop_confirmed ⟨28, 7⟩ ['a'] toksW2 0 1 (Or.inr (by decide))

/-! ## Claim C3 -/

/-- Token list for the line `a 0x1_f`. -/
def toksC3 : List Tok :=
  [⟨TokType.NAME, ['a'], 0, 1⟩, ⟨TokType.NUMBER, ("0x1_f").toList, 2, 7⟩,
   ⟨TokType.OTHER, [], 7, 8⟩]

/-- C3 (code_bug): the claim says the integer branch weighs the touched
digit by `base ^ (end - index - 1 - underscoresBetween(index, end))`
counted over the line's characters, for every start position of the
literal.  On `a 0x1_f` (literal at columns 2-7) with the cursor at
index 4 (the digit `1`), the source slices `expr[index:]` with the
line-absolute index 4 into the 5-character literal text, sees no
underscore and uses exponent 2, while the specified weight is 1. -/
theorem int_weight_slice_bug :
    outcomeExponent (increment_full ⟨28, 7⟩ (("a 0x1_f").toList) toksC3 4 1).1 = some 2 ∧
    specWeight (("a 0x1_f").toList) 4 7 = 1 ∧ (2 : Int) ≠ 1 := by
  decide

/-! ## Claim C8 -/

/-- Token list for the line `a 1_5`. -/
def toksC8 : List Tok :=
  [⟨TokType.NAME, ['a'], 0, 1⟩, ⟨TokType.NUMBER, ("1_5").toList, 2, 5⟩,
   ⟨TokType.OTHER, [], 5, 6⟩]

/-- C8 (code_bug): for a base-10 span with no decimal point the code does
treat the point as sitting at the span's end, but the claim also says the
weight then equals the digit-character distance from the touched position
to the span's end.  On `a 1_5` (literal at columns 2-5, no point) with
the cursor at index 2, the underscore count again slices the literal's
text with the line-absolute index, so the code computes weight 2 while
the digit-character distance is 1. -/
theorem dec_weight_slice_bug :
    outcomeExponent (increment_full ⟨28, 7⟩ (("a 1_5").toList) toksC8 2 1).1 = some 2 ∧
    pyContains (pySlice (("a 1_5").toList) 2 5) ['.'] = false ∧
    specWeight (("a 1_5").toList) 2 5 = 1 ∧ (2 : Int) ≠ 1 := by
  decide

/-! ## Claim C5 -/

/-- C5 (confirmed): for every successful transformation the returned
offset keeps the cursor at or after the first character past the
prefix/sign region (`index + offset ≥ start + prefixLen`); when the raw
length delta would violate this the returned offset is exactly
`start - index + prefixLen`, and otherwise it is the raw delta. -/
theorem offset_clamp_confirmed (st st' : PyState) (src : List Char) (toks : List Tok)
    (index : ℕ) (inc : Int) (d : IncDetails)
    (h : increment_full st src toks index inc = (IncOutcome.done d, st')) :
    ((d.start : Int) + d.prefixLen ≤ (index : Int) + d.offset) ∧
    (((index : Int) + d.rawOffset < (d.start : Int) + d.prefixLen) →
      d.offset = (d.start : Int) - index + d.prefixLen) ∧
    (((d.start : Int) + d.prefixLen ≤ (index : Int) + d.rawOffset) →
      d.offset = d.rawOffset) := by
  obtain ⟨s, e, bopt, result, exponent, precUsed, hg, hr, hd⟩ :=
    increment_done_shape st st' src toks index inc d h
  subst hd
  simp only [finish, clampOffset]
  refine ⟨?_, ?_, ?_⟩ <;> [skip; intro hlt; intro hle] <;> split <;> omega

/-- Token list for the line `1`. -/
def toksOne : List Tok :=
  [⟨TokType.NUMBER, ['1'], 0, 1⟩, ⟨TokType.OTHER, [], 1, 2⟩]

/-- The details record of incrementing `1` at index 0. -/
def wDetC5 : IncDetails :=
  ⟨0, 1, some 10, ['1'], 0, 28, ['2'], ['2'], 0, 0, 0, ['2']⟩

/-- Witness for C5: incrementing `1` at index 0. -/
theorem offset_clamp_witness :
    (((wDetC5.start : Int) + wDetC5.prefixLen ≤ ((0 : ℕ) : Int) + wDetC5.offset)) ∧
    ((((0 : ℕ) : Int) + wDetC5.rawOffset < (wDetC5.start : Int) + wDetC5.prefixLen) →
      wDetC5.offset = (wDetC5.start : Int) - ((0 : ℕ) : Int) + wDetC5.prefixLen) ∧
    (((wDetC5.start : Int) + wDetC5.prefixLen ≤ ((0 : ℕ) : Int) + wDetC5.rawOffset) →
      wDetC5.offset = wDetC5.rawOffset) :=
  offset_clamp_confirmed ⟨28, 7⟩ ⟨28, 7⟩ ['1'] toksOne 0 1 wDetC5 (by decide)

/-! ## Claim C9 -/

/-- C9 (confirmed): apart from the module-owned precision, the call leaves
the ambient state alone — whenever `increment_at_index` returns (rather
than raising), the thread's active decimal context is the one that was
active before the call. -/
theorem context_restored_confirmed (st st' : PyState) (src : List Char) (toks : List Tok)
    (index : ℕ) (inc : Int) (o : IncOutcome)
    (h : increment_full st src toks index inc = (o, st')) (ho : o ≠ IncOutcome.err) :
    st'.activeCtx = st.activeCtx := by
  cases o with
  | err => exact absurd rfl ho
  | noop => rw [increment_noop_state st st' src toks index inc h]
  | done d =>
    obtain ⟨s, e, bopt, result, exponent, precUsed, hg, hr, hd⟩ :=
      increment_done_shape st st' src toks index inc d h
    exact (runBranch_ok_state st st' (pySlice src s e) bopt index s e inc
      result exponent precUsed hr).1

/-- Token list for the line `1.0`. -/
def toksC9 : List Tok :=
  [⟨TokType.NUMBER, ("1.0").toList, 0, 3⟩, ⟨TokType.OTHER, [], 3, 4⟩]

/-- The details record of incrementing `1.0` at index 2. -/
def wDetC9 : IncDetails :=
  ⟨0, 3, some 10, ("1.0").toList, -1, 28, ("1.1").toList, ("1.1").toList, 0, 0, 0,
   ("1.1").toList⟩

/-- Witness for C9: incrementing `1.0` at index 2 (a decimal computation,
which swaps the context and must restore it). -/
theorem context_restored_witness :
    (⟨28, 7⟩ : PyState).activeCtx = (⟨28, 7⟩ : PyState).activeCtx :=
  context_restored_confirmed ⟨28, 7⟩ ⟨28, 7⟩ (("1.0").toList) toksC9 2 1
    (IncOutcome.done wDetC9) (by decide) (by decide)

/-! ## Claim C10 -/

/-- C10 (confirmed): a successful transformation rewrites only the matched
span — the new line is the old one with `[start, stop)` replaced by the
result text, every character before `start` and from `stop` on unchanged
and in place. -/
theorem frame_confirmed (st st' : PyState) (src : List Char) (toks : List Tok)
    (index : ℕ) (inc : Int) (d : IncDetails)
    (h : increment_full st src toks index inc = (IncOutcome.done d, st'))
    (hse : d.start ≤ d.stop) (hs : d.stop ≤ src.length) :
    d.line = src.take d.start ++ d.resultText ++ src.drop d.stop ∧
    d.line.take d.start = src.take d.start ∧
    d.line.drop (d.start + d.resultText.length) = src.drop d.stop := by
  obtain ⟨s, e, bopt, result, exponent, precUsed, hg, hr, hd⟩ :=
    increment_done_shape st st' src toks index inc d h
  subst hd
  simp only [finish] at hse hs ⊢
  have hlen : (src.take s).length = s := by
    rw [List.length_take]; omega
  refine ⟨?_, ?_, ?_⟩
  · trivial
  · rw [List.append_assoc, List.take_left' hlen]
  · rw [List.drop_left']
    rw [List.length_append, hlen]

/-- Token list for the line `30`. -/
def toksC10 : List Tok :=
  [⟨TokType.NUMBER, ("30").toList, 0, 2⟩, ⟨TokType.OTHER, [], 2, 3⟩]

/-- The details record of decrementing `30` at index 1. -/
def wDetC10 : IncDetails :=
  ⟨0, 2, some 10, ("30").toList, 0, 28, ("29").toList, ("29").toList, 0, 0, 0,
   ("29").toList⟩

/-- Witness for C10: decrementing `30` at index 1. -/
theorem frame_witness :
    wDetC10.line =
        (("30").toList).take wDetC10.start ++ wDetC10.resultText ++
          (("30").toList).drop wDetC10.stop ∧
    wDetC10.line.take wDetC10.start = (("30").toList).take wDetC10.start ∧
    wDetC10.line.drop (wDetC10.start + wDetC10.resultText.length) =
      (("30").toList).drop wDetC10.stop :=
  frame_confirmed ⟨28, 7⟩ ⟨28, 7⟩ (("30").toList) toksC10 1 (-1) wDetC10
    (by decide) (by decide) (by decide)

/-! ## Claim C7 -/

/-- Token list for a 28-digit decimal line. -/
def toksC7 : List Tok :=
  [⟨TokType.NUMBER, ("9999999999999999999999999991").toList, 0, 28⟩,
   ⟨TokType.OTHER, [], 28, 29⟩]

/-- C7 (counterexample): the claim demands that before every decimal
computation the precision be at least the literal's digit count *plus a
safety margin*.  With the decimal module's default precision 28 and a
28-digit literal, the code leaves the precision at 28 — equal to the
digit count, with no margin — because it only raises it when the length
strictly exceeds the stored precision. -/
theorem prec_margin_counterexample :
    outcomePrec
        (increment_full ⟨28, 7⟩ (("9999999999999999999999999991").toList) toksC7 27 1).1 =
      some 28 ∧
    decDigitCount (("9999999999999999999999999991").toList) = 28 ∧ ¬ (28 + 1 ≤ 28) := by
  decide

/-- C7 (amended): the precision is monotonically non-decreasing across
every call, and immediately before every decimal computation it is at
least the length of the literal's text; when that length exceeds the
stored precision it is raised to the length plus 5, and otherwise it is
left exactly at the stored precision (so no positive margin above the
digit count is guaranteed). -/
theorem prec_amended (st st' : PyState) (src : List Char) (toks : List Tok)
    (index : ℕ) (inc : Int) (o : IncOutcome) (d : IncDetails)
    (h : increment_full st src toks index inc = (o, st')) :
    st.modulePrec ≤ st'.modulePrec ∧
      (o = IncOutcome.done d → d.base = some 10 →
        d.expr.length ≤ d.precUsed ∧ st'.modulePrec = d.precUsed ∧
          (st.modulePrec < d.expr.length → d.precUsed = d.expr.length + 5) ∧
          (d.expr.length ≤ st.modulePrec → d.precUsed = st.modulePrec)) := by
  constructor
  · exact increment_prec_mono st st' src toks index inc o h
  · intro ho hb
    subst ho
    obtain ⟨s, e, bopt, result, exponent, precUsed, hg, hr, hd⟩ :=
      increment_done_shape st st' src toks index inc d h
    subst hd
    simp only [finish] at hb ⊢
    subst hb
    have hst := runBranch_ok_state st st' (pySlice src s e) (some 10) index s e inc
      result exponent precUsed hr
    have hp := runBranch_ok_prec10 st st' (pySlice src s e) index s e inc
      result exponent precUsed hr
    exact ⟨hp.1, hst.2.1, hp.2.1, hp.2.2⟩

/-! ## Claim C4 -/

/-- Token list for the line `0xAb`. -/
def toksAb : List Tok :=
  [⟨TokType.NUMBER, ("0xAb").toList, 0, 4⟩, ⟨TokType.OTHER, [], 4, 5⟩]

/-- C4 (counterexample): the claim says a hex literal whose original
digits have mixed case is rendered in upper case.  Incrementing `0xAb`
at index 2 — original digits `Ab`, mixed case — yields `0xbb`: the code
renders *lower* case as soon as any lower-case letter occurs. -/
theorem hex_mixed_case_counterexample :
    (increment_at_index ⟨28, 7⟩ (("0xAb").toList) toksAb 2 1).1 =
        some ((("0xbb").toList), 0) ∧
    isUpperCh 'A' = true ∧ isLowerCh 'b' = true ∧
    noUpperIn (pySlice (("0xbb").toList) 2 4) = true ∧
    anyLower (pySlice (("0xbb").toList) 2 4) = true := by
  decide

/-- The characters that can occur in `hex(v)[2:]`: hex digits (lower
case) and, for a negative value, the leaked `x` of the prefix. -/
def hexTailSet : List Char :=
  ['x', '0', '1', '2', '3', '4', '5', '6', '7'] ++
    ['8', '9', 'a', 'b', 'c', 'd', 'e', 'f']

/-- Digits extracted by `natDigitsRev` are valid base-`b` digits. -/
lemma natDigitsRev_lt (b : ℕ) (hb : 0 < b) :
    ∀ fuel n, ∀ d ∈ natDigitsRev b fuel n, d < b := by
  intro fuel
  induction fuel with
  | zero => intro n d hd; simp [natDigitsRev] at hd
  | succ fuel ih =>
    intro n d hd
    unfold natDigitsRev at hd
    split at hd
    · simp at hd
    · rcases List.mem_cons.mp hd with rfl | hmem
      · exact Nat.mod_lt _ hb
      · exact ih _ _ hmem

/-- Every character of `renderNat 16 n` lies in `hexTailSet`. -/
lemma renderNat16_mem (n : ℕ) : ∀ c ∈ renderNat 16 n, c ∈ hexTailSet := by
  intro c hc
  unfold renderNat at hc
  split at hc
  · simp at hc
    subst hc
    decide
  · rw [List.mem_map] at hc
    obtain ⟨d, hd, rfl⟩ := hc
    rw [List.mem_reverse] at hd
    have hlt : d < 16 := natDigitsRev_lt 16 (by decide) _ _ d hd
    have hmem16 : ∀ d, d < 16 → digitCharLower d ∈ hexTailSet := by decide
    exact hmem16 d hlt

/-- Every character of `hex(v)[2:]` lies in `hexTailSet`. -/
lemma pyHex_drop2_mem (v : Int) : ∀ c ∈ (pyHex v).drop 2, c ∈ hexTailSet := by
  intro c hc
  unfold pyHex at hc
  split at hc
  · simp only [List.drop_succ_cons, List.drop_zero] at hc
    rcases List.mem_cons.mp hc with rfl | hmem
    · decide
    · exact renderNat16_mem _ c hmem
  · simp only [List.drop_succ_cons, List.drop_zero] at hc
    exact renderNat16_mem _ c hc

/-- Lower-casing a `hexTailSet` character never yields an upper-case
letter. -/
lemma toLower_no_upper : ∀ c ∈ hexTailSet, isUpperCh (toLowerCh c) = false := by
  decide

/-- Upper-casing a `hexTailSet` character never yields a lower-case
letter. -/
lemma toUpper_no_lower : ∀ c ∈ hexTailSet, isLowerCh (toUpperCh c) = false := by
  decide

/-- Characters of `pyInsert arr j x` come from `arr` or are `x`. -/
lemma pyInsert_subset (arr : List Char) (j : Int) (x c : Char)
    (hc : c ∈ pyInsert arr j x) : c ∈ arr ∨ c = x := by
  unfold pyInsert at hc
  rw [List.mem_append] at hc
  rcases hc with hc | hc
  · exact Or.inl (List.take_subset _ _ hc)
  · rcases List.mem_cons.mp hc with rfl | hc
    · exact Or.inr rfl
    · exact Or.inl (List.drop_subset _ _ hc)

/-- Characters of the underscore re-insertion loop come from the raw
result or are underscores. -/
lemma insertLoop_subset (pfx : ℕ) :
    ∀ us arr, ∀ c ∈ insertLoop pfx arr us, c ∈ arr ∨ c = '_' := by
  intro us
  induction us with
  | nil => intro arr c hc; exact Or.inl hc
  | cons i rest ih =>
    intro arr c hc
    unfold insertLoop at hc
    rcases ih _ c hc with hmem | rfl
    · split at hmem
      · rcases pyInsert_subset arr (i + 1) '_' c hmem with hm | rfl
        · exact Or.inl hm
        · exact Or.inr rfl
      · exact Or.inl hmem
    · exact Or.inr rfl

/-- The hex branch's raw result, extracted from an `ok` outcome. -/
lemma runBranch16_result (st st' : PyState) (expr : List Char)
    (index s e : ℕ) (inc : Int) (r : List Char) (ex : Int) (p : ℕ)
    (h : runBranch st expr (some 16) index s e inc = (BranchOut.ok r ex p, st'))
    (ht : expr ≠ trueL) (hf : expr ≠ falseL) :
    ∃ v', r = intRender 16 expr v' := by
  unfold runBranch at h
  rw [if_neg (show ¬ ((some 16 : Option ℕ) = some 10) from by decide), if_neg ht,
    if_neg hf, if_neg (show ¬ ((some 16 : Option ℕ) = none) from by decide)] at h
  unfold intBranch at h
  split at h
  · simp at h
  · split at h
    · simp at h
    · injection h with hA hB
      injection hA with h1 h2 h3
      exact ⟨_, h1.symm⟩

/-- C4 (amended): the rendered hex digit string after the original
literal's first two characters is lower-cased exactly when a lower-case
letter occurs in the original text after those two characters (so mixed
case renders lower, not upper; text with no lower-case letters renders
upper), and the final underscore re-insertion only adds underscores, so
it cannot change the letter case. -/
theorem hex_case_amended (st st' : PyState) (src : List Char) (toks : List Tok)
    (index : ℕ) (inc : Int) (d : IncDetails)
    (h : increment_full st src toks index inc = (IncOutcome.done d, st'))
    (hb : d.base = some 16) (ht : d.expr ≠ trueL) (hf : d.expr ≠ falseL)
    (hlen : 2 ≤ d.expr.length) :
    (anyLower (d.expr.drop 2) = true → noUpperIn (d.rawResult.drop 2) = true) ∧
    (anyLower (d.expr.drop 2) = false → noLowerIn (d.rawResult.drop 2) = true) ∧
    charsFrom d.resultText d.rawResult = true := by
  obtain ⟨s, e, bopt, result, exponent, precUsed, hg, hr, hd⟩ :=
    increment_done_shape st st' src toks index inc d h
  subst hd
  simp only [finish] at hb ht hf hlen ⊢
  subst hb
  obtain ⟨v', hres⟩ := runBranch16_result st st' (pySlice src s e) index s e inc
    result exponent precUsed hr ht hf
  subst hres
  have htake2 : ((pySlice src s e).take 2).length = 2 := by
    rw [List.length_take]; omega
  have hint : intRender 16 (pySlice src s e) v' =
      (pySlice src s e).take 2 ++
        (if anyLower ((pySlice src s e).drop 2) then pyLower ((pyHex v').drop 2)
         else pyUpper ((pyHex v').drop 2)) := rfl
  refine ⟨?_, ?_, ?_⟩
  · intro hflag
    rw [hint, if_pos hflag, List.drop_left' htake2]
    unfold noUpperIn
    rw [List.all_eq_true]
    intro c hc
    unfold pyLower at hc
    rw [List.mem_map] at hc
    obtain ⟨x, hx, rfl⟩ := hc
    rw [toLower_no_upper x (pyHex_drop2_mem v' x hx)]
    rfl
  · intro hflag
    rw [hint, if_neg (by simp [hflag]), List.drop_left' htake2]
    unfold noLowerIn
    rw [List.all_eq_true]
    intro c hc
    unfold pyUpper at hc
    rw [List.mem_map] at hc
    obtain ⟨x, hx, rfl⟩ := hc
    rw [toUpper_no_lower x (pyHex_drop2_mem v' x hx)]
    rfl
  · unfold charsFrom
    rw [List.all_eq_true]
    intro c hc
    unfold resultTextOf at hc
    rcases insertLoop_subset _ _ _ c hc with hm | rfl
    · rw [decide_eq_true hm]
      rfl
    · rw [decide_eq_true rfl, Bool.or_true]

/-- Token list for the line `0xa`. -/
def toksC4w : List Tok :=
  [⟨TokType.NUMBER, ("0xa").toList, 0, 3⟩, ⟨TokType.OTHER, [], 3, 4⟩]

/-- The details record of incrementing `0xa` at index 2. -/
def wDetC4 : IncDetails :=
  ⟨0, 3, some 16, ("0xa").toList, 0, 28, ("0xb").toList, ("0xb").toList, 2, 0, 0,
   ("0xb").toList⟩

/-- Witness for the amended C4: incrementing `0xa` at index 2 (lower-case
original digits, lower-case result digits). -/
theorem hex_case_amended_witness :
    (anyLower (wDetC4.expr.drop 2) = true → noUpperIn (wDetC4.rawResult.drop 2) = true) ∧
    (anyLower (wDetC4.expr.drop 2) = false → noLowerIn (wDetC4.rawResult.drop 2) = true) ∧
    charsFrom wDetC4.resultText wDetC4.rawResult = true :=
  hex_case_amended ⟨28, 7⟩ ⟨28, 7⟩ (("0xa").toList) toksC4w 2 1 wDetC4
    (by decide) (by decide) (by decide) (by decide) (by decide)

/-! ## Digit-string round-trip lemmas (for claim C6) -/

/-- With enough fuel, `natDigitsRev` computes `Nat.digits`. -/
lemma natDigitsRev_eq_digits (b : ℕ) (hb : 2 ≤ b) :
    ∀ fuel n, n ≤ fuel → natDigitsRev b fuel n = Nat.digits b n := by
  intro fuel
  induction fuel with
  | zero =>
    intro n hn
    have : n = 0 := by omega
    subst this
    simp [natDigitsRev]
  | succ fuel ih =>
    intro n hn
    unfold natDigitsRev
    split
    · rename_i h0
      subst h0
      simp
    · rename_i h0
      have hpos : 0 < n := Nat.pos_of_ne_zero h0
      rw [Nat.digits_def' (by omega : 1 < b) hpos]
      congr 1
      exact ih (n / b) (by
        have := Nat.div_lt_self hpos (by omega : 1 < b)
        omega)

/-- `renderNat` is the reversed digit list of `Nat.digits`, character by
character. -/
lemma renderNat_eq_digits (b n : ℕ) (hb : 2 ≤ b) :
    renderNat b n =
      if n = 0 then ['0'] else (Nat.digits b n).reverse.map digitCharLower := by
  unfold renderNat
  split
  · rfl
  · rw [natDigitsRev_eq_digits b hb (n + 1) n (Nat.le_succ n)]

/-- `parseDigitsAux` over an appended list runs the two parts in
sequence. -/
lemma parseDigitsAux_append (b acc : ℕ) (l₁ l₂ : List Char) :
    parseDigitsAux b acc (l₁ ++ l₂) =
      (parseDigitsAux b acc l₁).bind (fun a => parseDigitsAux b a l₂) := by
  induction l₁ generalizing acc with
  | nil => rfl
  | cons c r ih =>
    cases hdv : digitVal b c with
    | none => simp [List.cons_append, parseDigitsAux, hdv]
    | some v => simp [List.cons_append, parseDigitsAux, hdv, ih]

/-- Parsing a most-significant-first rendering of a digit list, mapped
through any digit-faithful character function, accumulates the digits'
value. -/
lemma parseDigitsAux_render (b : ℕ) (g : ℕ → Char) (ds : List ℕ)
    (hg : ∀ d ∈ ds, digitVal b (g d) = some d) :
    ∀ acc, parseDigitsAux b acc ((ds.map g).reverse) =
      some (acc * b ^ ds.length + Nat.ofDigits b ds) := by
  induction ds with
  | nil =>
    intro acc
    simp [parseDigitsAux, Nat.ofDigits]
  | cons d t ih =>
    intro acc
    have hgt : ∀ x ∈ t, digitVal b (g x) = some x := fun x hx =>
      hg x (List.mem_cons_of_mem _ hx)
    have hgd : digitVal b (g d) = some d := hg d (List.mem_cons_self _ _)
    simp only [List.map_cons, List.reverse_cons]
    rw [parseDigitsAux_append, ih hgt acc]
    simp only [Option.some_bind]
    unfold parseDigitsAux
    rw [hgd]
    unfold parseDigitsAux
    rw [Nat.ofDigits_cons, List.length_cons, pow_succ]
    congr 1
    ring

/-- Round trip: parsing the (possibly case-mapped) rendering of `n`
returns `n`. -/
lemma parseDigits_render (b n : ℕ) (hb : 2 ≤ b) (f : Char → Char)
    (hf : ∀ d, d < b → digitVal b (f (digitCharLower d)) = some d) :
    parseDigits b ((renderNat b n).map f) = some n := by
  rw [renderNat_eq_digits b n hb]
  split
  · rename_i h0
    subst h0
    have h0v := hf 0 (by omega)
    have hch : digitCharLower 0 = '0' := by decide
    rw [hch] at h0v
    simp [parseDigits, parseDigitsAux, h0v]
  · rename_i h0
    have hne : Nat.digits b n ≠ [] := Nat.digits_ne_nil_iff_ne_zero.mpr h0
    have hgd : ∀ d ∈ Nat.digits b n, digitVal b ((f ∘ digitCharLower) d) = some d :=
      fun d hd => hf d (Nat.digits_lt_base (by omega) hd)
    rw [List.map_map, List.map_reverse]
    unfold parseDigits
    rw [if_neg (by simp [List.isEmpty_iff, hne])]
    rw [parseDigitsAux_render b (f ∘ digitCharLower) (Nat.digits b n) hgd 0]
    simp [Nat.ofDigits_digits]

/-- Identity is digit-faithful for base 2. -/
lemma digitFaithful_id2 : ∀ d, d < 2 → digitVal 2 (digitCharLower d) = some d := by decide

/-- Identity is digit-faithful for base 8. -/
lemma digitFaithful_id8 : ∀ d, d < 8 → digitVal 8 (digitCharLower d) = some d := by decide

/-- Identity is digit-faithful for base 16. -/
lemma digitFaithful_id16 : ∀ d, d < 16 → digitVal 16 (digitCharLower d) = some d := by
  decide

/-- Lower-casing is digit-faithful for base 16. -/
lemma digitFaithful_lower16 :
    ∀ d, d < 16 → digitVal 16 (toLowerCh (digitCharLower d)) = some d := by decide

/-- Upper-casing is digit-faithful for base 16. -/
lemma digitFaithful_upper16 :
    ∀ d, d < 16 → digitVal 16 (toUpperCh (digitCharLower d)) = some d := by decide

/-- Round trip for the un-mapped rendering. -/
lemma parseDigits_render_id (b n : ℕ) (hb : 2 ≤ b)
    (hf : ∀ d, d < b → digitVal b (digitCharLower d) = some d) :
    parseDigits b (renderNat b n) = some n := by
  have := parseDigits_render b n hb id (by
    intro d hd
    simpa using hf d hd)
  simpa using this

/-- A value at least `b ^ k` renders with at least `k + 1` digits. -/
lemma renderNat_length_lb (b n k : ℕ) (hb : 2 ≤ b) (h : b ^ k ≤ n) :
    k + 1 ≤ (renderNat b n).length := by
  have hbp : 0 < b ^ k := Nat.pow_pos (by omega)
  have hn : n ≠ 0 := by omega
  rw [renderNat_eq_digits b n hb, if_neg hn]
  rw [List.length_map, List.length_reverse]
  rw [Nat.digits_len b n (by omega) hn]
  have hk : k ≤ Nat.log b n := (Nat.pow_le_iff_le_log (by omega) hn).mp h
  omega

/-- The rendering of a number is never empty. -/
lemma renderNat_ne_nil (b n : ℕ) : renderNat b n ≠ [] := by
  unfold renderNat
  split
  · simp
  · rename_i h0
    unfold natDigitsRev
    rw [if_neg h0]
    simp

/-- A digit list contains no underscores, so filtering them away is the
identity. -/
lemma digits_no_underscore (b : ℕ) (ds : List Char)
    (hds : ∀ c ∈ ds, (digitVal b c).isSome = true) :
    ds.filter (fun c => c ≠ '_') = ds := by
  rw [List.filter_eq_self]
  intro a ha
  have hv := hds a ha
  by_contra hne
  simp at hne
  subst hne
  simp [digitVal, digitValRaw] at hv

/-- A digit character is never an underscore. -/
lemma digit_ne_underscore (b : ℕ) (c : Char) (hc : (digitVal b c).isSome = true) :
    c ≠ '_' := by
  intro h
  subst h
  simp [digitVal, digitValRaw] at hc

/-- Counting a character absent from a list gives zero. -/
lemma pyCount_eq_zero (l : List Char) (c : Char) (h : ∀ x ∈ l, x ≠ c) :
    pyCount l c = 0 := by
  unfold pyCount
  rw [List.length_eq_zero]
  rw [List.filter_eq_nil_iff]
  intro a ha
  simp [h a ha]

/-- The underscore enumeration of an underscore-free text is empty. -/
lemma underscoreNegIdxAux_nil (len : ℕ) :
    ∀ l i, (∀ c ∈ l, c ≠ '_') → underscoreNegIdxAux len i l = [] := by
  intro l
  induction l with
  | nil => intro i _; rfl
  | cons c r ih =>
    intro i hc
    unfold underscoreNegIdxAux
    rw [if_neg (hc c (List.mem_cons_self _ _))]
    exact ih (i + 1) (fun x hx => hc x (List.mem_cons_of_mem _ hx))

/-- The underscore positions of an underscore-free literal text. -/
lemma underscoreNegIdx_nil (expr : List Char) (h : ∀ c ∈ expr, c ≠ '_') :
    underscoreNegIdx expr = [] :=
  underscoreNegIdxAux_nil _ _ 0 h

/-- Length of a Python slice with bounds inside the list. -/
lemma pySlice_length (l : List Char) (a bnd : ℕ) (hb : bnd ≤ l.length) :
    (pySlice l a bnd).length = bnd - a := by
  unfold pySlice
  rw [List.length_drop, List.length_take]
  omega

/-- Slicing the replaced region back out of a spliced line returns the
replacement. -/
lemma pySlice_splice (A R B : List Char) (s : ℕ) (hA : A.length = s) :
    pySlice (A ++ R ++ B) s (s + R.length) = R := by
  unfold pySlice
  have h1 : (A ++ R).length = s + R.length := by rw [List.length_append, hA]
  rw [List.take_left' h1, List.drop_left' hA]

/-- Parsing an all-digit string succeeds. -/
lemma parseDigitsAux_isSome (b : ℕ) :
    ∀ l, (∀ c ∈ l, (digitVal b c).isSome = true) →
      ∀ acc, (parseDigitsAux b acc l).isSome = true := by
  intro l
  induction l with
  | nil => intro _ acc; rfl
  | cons c r ih =>
    intro hl acc
    unfold parseDigitsAux
    cases hdv : digitVal b c with
    | none =>
      have := hl c (List.mem_cons_self _ _)
      rw [hdv] at this
      simp at this
    | some v => exact ih (fun x hx => hl x (List.mem_cons_of_mem _ hx)) _

/-- Parsing a non-empty all-digit string yields a value. -/
lemma parseDigits_isSome (b : ℕ) (l : List Char) (hne : l ≠ [])
    (h : ∀ c ∈ l, (digitVal b c).isSome = true) : ∃ v, parseDigits b l = some v := by
  unfold parseDigits
  rw [if_neg (by simp [List.isEmpty_iff, hne])]
  have := parseDigitsAux_isSome b l h 0
  exact Option.isSome_iff_exists.mp this

/-- `ast.literal_eval` on a prefixed, sign-free literal parses the digit
run in the marker's base. -/
lemma parseIntLit_prefixed (b : ℕ) (m : Char) (ds : List Char)
    (hm : m ∈ markerChars b)
    (hfil : ds.filter (fun c => c ≠ '_') = ds) :
    parseIntLit ('0' :: m :: ds) = (parseDigits b ds).map (fun n => (n : Int)) := by
  have hb : (b = 2 ∧ (m = 'b' ∨ m = 'B')) ∨ (b = 8 ∧ (m = 'o' ∨ m = 'O')) ∨
      (b = 16 ∧ (m = 'x' ∨ m = 'X')) := by
    unfold markerChars at hm
    split at hm
    · rename_i h2; simp at hm; exact Or.inl ⟨h2, hm⟩
    · split at hm
      · rename_i h8; simp at hm; exact Or.inr (Or.inl ⟨h8, hm⟩)
      · split at hm
        · rename_i h16; simp at hm; exact Or.inr (Or.inr ⟨h16, hm⟩)
        · simp at hm
  have hfil' : ds.filter (fun c => !decide (c = '_')) = ds := by simpa using hfil
  rcases hb with ⟨rfl, rfl | rfl⟩ | ⟨rfl, rfl | rfl⟩ | ⟨rfl, rfl | rfl⟩ <;>
    simp [parseIntLit, hfil']

/-- The digit tail of the integer branch's raw result: rendered digits,
case-adjusted for base 16 by the case detected in the original text. -/
def caseTail (b : ℕ) (expr : List Char) (n : ℕ) : List Char :=
  if b = 16 then
    (if anyLower (expr.drop 2) then pyLower (renderNat 16 n) else pyUpper (renderNat 16 n))
  else renderNat b n

/-- For a non-negative new value the integer branch's rendering is the
original first two characters followed by `caseTail`. -/
lemma intRender_eq_caseTail (b : ℕ) (expr : List Char) (v' : Int)
    (hb : b = 2 ∨ b = 8 ∨ b = 16) (hnn : 0 ≤ v') :
    intRender b expr v' = expr.take 2 ++ caseTail b expr v'.toNat := by
  have hneg : ¬ v' < 0 := by omega
  rcases hb with rfl | rfl | rfl
  · unfold intRender caseTail pyBin
    rw [if_neg hneg]
    rfl
  · unfold intRender caseTail pyOct
    rw [if_neg hneg]
    rfl
  · unfold intRender caseTail pyHex
    rw [if_neg hneg]
    rfl

/-- The case-adjusted tail has the same length as the plain rendering. -/
lemma caseTail_length (b : ℕ) (expr : List Char) (n : ℕ) :
    (caseTail b expr n).length = (renderNat b n).length := by
  unfold caseTail
  split
  · rename_i h16
    subst h16
    split <;> simp [pyLower, pyUpper]
  · rfl

/-- The case-adjusted tail is non-empty. -/
lemma caseTail_ne_nil (b : ℕ) (expr : List Char) (n : ℕ) : caseTail b expr n ≠ [] := by
  intro h
  have hl := caseTail_length b expr n
  rw [h] at hl
  have hz : (renderNat b n).length = 0 := by simpa using hl.symm
  exact renderNat_ne_nil b n (List.length_eq_zero.mp hz)

/-- Every character of the case-adjusted tail is a digit of the base. -/
lemma caseTail_digits (b : ℕ) (expr : List Char) (n : ℕ)
    (hb : b = 2 ∨ b = 8 ∨ b = 16) :
    ∀ c ∈ caseTail b expr n, (digitVal b c).isSome = true := by
  intro c hc
  have hmem :
      ∀ (f : Char → Char), (∀ d, d < b → (digitVal b (f (digitCharLower d))).isSome = true) →
        c ∈ (renderNat b n).map f → (digitVal b c).isSome = true := by
    intro f hf hcm
    rw [List.mem_map] at hcm
    obtain ⟨x, hx, rfl⟩ := hcm
    unfold renderNat at hx
    split at hx
    · simp at hx
      subst hx
      exact hf 0 (by rcases hb with rfl | rfl | rfl <;> omega)
    · rw [List.mem_map] at hx
      obtain ⟨dd, hdd, rfl⟩ := hx
      rw [List.mem_reverse] at hdd
      exact hf dd (natDigitsRev_lt b (by rcases hb with rfl | rfl | rfl <;> omega) _ _ dd hdd)
  unfold caseTail at hc
  rcases hb with rfl | rfl | rfl
  · rw [if_neg (by decide)] at hc
    refine hmem id ?_ (by simpa using hc)
    intro d hd
    simp [digitFaithful_id2 d hd]
  · rw [if_neg (by decide)] at hc
    refine hmem id ?_ (by simpa using hc)
    intro d hd
    simp [digitFaithful_id8 d hd]
  · rw [if_pos rfl] at hc
    split at hc
    · refine hmem toLowerCh ?_ hc
      intro d hd
      simp [digitFaithful_lower16 d hd]
    · refine hmem toUpperCh ?_ hc
      intro d hd
      simp [digitFaithful_upper16 d hd]

/-- Parsing the case-adjusted tail returns the rendered value. -/
lemma caseTail_parse (b : ℕ) (expr : List Char) (n : ℕ)
    (hb : b = 2 ∨ b = 8 ∨ b = 16) :
    parseDigits b (caseTail b expr n) = some n := by
  unfold caseTail
  rcases hb with rfl | rfl | rfl
  · rw [if_neg (by decide)]
    exact parseDigits_render_id 2 n (by omega) digitFaithful_id2
  · rw [if_neg (by decide)]
    exact parseDigits_render_id 8 n (by omega) digitFaithful_id8
  · rw [if_pos rfl]
    split
    · exact parseDigits_render 16 n (by omega) toLowerCh digitFaithful_lower16
    · exact parseDigits_render 16 n (by omega) toUpperCh digitFaithful_upper16

/-! ## Claim C6 -/

/-- Token list for the line `-11.0`. -/
def toksM110 : List Tok :=
  [⟨TokType.OTHER, ['-'], 0, 1⟩, ⟨TokType.NUMBER, ("11.0").toList, 1, 5⟩,
   ⟨TokType.OTHER, [], 5, 6⟩]

/-- Token list for the line `-1.0`. -/
def toksM10 : List Tok :=
  [⟨TokType.OTHER, ['-'], 0, 1⟩, ⟨TokType.NUMBER, ("1.0").toList, 1, 4⟩,
   ⟨TokType.OTHER, [], 4, 5⟩]

/-- Token list for the line `-2.0`. -/
def toksM20 : List Tok :=
  [⟨TokType.OTHER, ['-'], 0, 1⟩, ⟨TokType.NUMBER, ("2.0").toList, 1, 4⟩,
   ⟨TokType.OTHER, [], 4, 5⟩]

/-- C6 (counterexample): incrementing `-11.0` at index 1 yields `-1.0`
with a *clamped* cursor offset 0 (the raw delta is -1), so the cursor no
longer rests on a digit of the original weight; decrementing at the
shifted position `1 + 0 = 1` yields `-2.0`, whose literal value -2 is not
the original value -11. -/
theorem roundtrip_counterexample :
    (increment_at_index ⟨28, 7⟩ (("-11.0").toList) toksM110 1 1).1 =
        some ((("-1.0").toList), 0) ∧
    (increment_at_index ⟨28, 7⟩ (("-1.0").toList) toksM10 1 (-1)).1 =
        some ((("-2.0").toList), 0) ∧
    literalValueAt (("-11.0").toList) toksM110 1 = some ⟨true, 110, -1⟩ ∧
    literalValueAt (("-2.0").toList) toksM20 1 = some ⟨true, 20, -1⟩ ∧
    decValEq ⟨true, 110, -1⟩ ⟨true, 20, -1⟩ = false := by
  decide

/-- A prefix marker is not an underscore. -/
lemma marker_ne_underscore (b : ℕ) (m : Char) (hm : m ∈ markerChars b) : m ≠ '_' := by
  unfold markerChars at hm
  split at hm
  · simp at hm; rcases hm with rfl | rfl <;> decide
  · split at hm
    · simp at hm; rcases hm with rfl | rfl <;> decide
    · split at hm
      · simp at hm; rcases hm with rfl | rfl <;> decide
      · simp at hm

/-- All values the integer branch commits to on an `ok` outcome. -/
lemma intBranch_ok_values (st st' : PyState) (expr : List Char) (b : ℕ)
    (index s e : ℕ) (inc : Int) (r : List Char) (ex : Int) (p : ℕ)
    (hb : b = 2 ∨ b = 8 ∨ b = 16)
    (h : runBranch st expr (some b) index s e inc = (BranchOut.ok r ex p, st'))
    (hT : expr ≠ trueL) (hF : expr ≠ falseL) :
    st' = st ∧ p = st.modulePrec ∧ ex = intExponent expr index e ∧
      ∃ v, parseIntLit expr = some v ∧
        r = intRender b expr (v + inc * (b : Int) ^ (intExponent expr index e).toNat) := by
  have h10 : ¬ ((some b : Option ℕ) = some 10) := by
    rcases hb with rfl | rfl | rfl <;> decide
  have hn0 : ¬ ((some b : Option ℕ) = none) := by simp
  unfold runBranch at h
  rw [if_neg h10, if_neg hT, if_neg hF, if_neg hn0] at h
  rw [show (some b : Option ℕ).getD 0 = b from rfl] at h
  unfold intBranch at h
  split at h
  · simp at h
  · rename_i v hv
    split at h
    · simp at h
    · injection h with hA hB
      injection hA with hA1 hA2 hA3
      exact ⟨hB.symm, hA3.symm, hA2.symm, v, hv, hA1.symm⟩

/-- C6 (amended): for an unsigned, underscore-free binary/octal/hex
literal, incrementing at a digit position and then decrementing at the
original index shifted by the returned cursor offset restores the
literal's value, provided the locator relocates the rewritten literal at
the same start column (a property of the tokenizer, supplied as a
hypothesis about the second call's token list).  The original claim fails
for clamped offsets and for base-10 literals (see the counterexample), so
it is restricted to the unclamped integer-literal case — and for these
literals the offset is in fact never clamped. -/
theorem roundtrip_amended
    (st st1 st2 : PyState) (src : List Char) (toks toks2 : List Tok)
    (index j s e b : ℕ) (m : Char) (ds : List Char) (d1 d2 : IncDetails)
    (hb : b = 2 ∨ b = 8 ∨ b = 16)
    (hg : getnum src index toks = some (s, e, some b))
    (hexpr : pySlice src s e = '0' :: m :: ds)
    (hm : m ∈ markerChars b)
    (hds : ∀ c ∈ ds, (digitVal b c).isSome = true)
    (hdsne : ds ≠ [])
    (hse : s + 2 ≤ index) (hie : index < e) (hes : e ≤ src.length)
    (h1 : increment_full st src toks index 1 = (IncOutcome.done d1, st1))
    (h2 : increment_full st1 d1.line toks2 j (-1) = (IncOutcome.done d2, st2))
    (hj : (j : Int) = (index : Int) + d1.offset)
    (hg2 : getnum d1.line j toks2 = some (s, s + d1.resultText.length, some b)) :
    parseIntLit d2.resultText = parseIntLit d1.expr ∧
      (parseIntLit d1.expr).isSome = true := by
  have hb2 : 2 ≤ b := by rcases hb with rfl | rfl | rfl <;> omega
  have hexprlen : (pySlice src s e).length = e - s := pySlice_length src s e hes
  have hlen_ds : e - s = 2 + ds.length := by
    rw [← hexprlen, hexpr]; simp; omega
  have hnu : ∀ c ∈ pySlice src s e, c ≠ '_' := by
    rw [hexpr]
    intro c hc
    rcases List.mem_cons.mp hc with rfl | hc
    · decide
    · rcases List.mem_cons.mp hc with rfl | hc
      · exact marker_ne_underscore b c hm
      · exact digit_ne_underscore b c (hds c hc)
  have hT : pySlice src s e ≠ trueL := by rw [hexpr]; simp [trueL]
  have hF : pySlice src s e ≠ falseL := by rw [hexpr]; simp [falseL]
  obtain ⟨v, hv⟩ := parseDigits_isSome b ds hdsne hds
  have hparse : parseIntLit (pySlice src s e) = some ((v : ℕ) : Int) := by
    rw [hexpr, parseIntLit_prefixed b m ds hm (digits_no_underscore b ds hds), hv]
    rfl
  -- first call
  obtain ⟨s₁, e₁, bopt₁, result₁, exponent₁, precUsed₁, hg1', hr1, hd1⟩ :=
    increment_done_shape st st1 src toks index 1 d1 h1
  rw [hg] at hg1'
  obtain ⟨rfl, rfl, rfl⟩ : s = s₁ ∧ e = e₁ ∧ (some b : Option ℕ) = bopt₁ := by
    simpa using hg1'
  obtain ⟨hst1, hprec1, hex1, v₁, hpv₁, hres1⟩ :=
    intBranch_ok_values st st1 (pySlice src s e) b index s e 1 result₁ exponent₁
      precUsed₁ hb hr1 hT hF
  rw [hparse] at hpv₁
  injection hpv₁ with hv₁
  subst hv₁
  have hcount1 : pyCount ((pySlice src s e).drop index) '_' = 0 :=
    pyCount_eq_zero _ _ (fun x hx => hnu x (List.drop_subset _ _ hx))
  have hexpVal : intExponent (pySlice src s e) index e = (e : Int) - index - 1 := by
    unfold intExponent
    rw [hcount1]
    push_cast
    ring
  have htoNat : (intExponent (pySlice src s e) index e).toNat = e - index - 1 := by
    rw [hexpVal]; omega
  set n' : ℕ := v + b ^ (e - index - 1) with hn'
  have hres1' : result₁ =
      (pySlice src s e).take 2 ++ caseTail b (pySlice src s e) n' := by
    rw [hres1, htoNat,
      show ((v : ℕ) : Int) + 1 * (b : Int) ^ (e - index - 1) = ((n' : ℕ) : Int) from by
        push_cast [hn']; ring,
      intRender_eq_caseTail b _ _ hb (Int.natCast_nonneg _), Int.toNat_natCast]
  have hres1'' : result₁ = '0' :: m :: caseTail b (pySlice src s e) n' := by
    rw [hres1', hexpr]
    rfl
  have hnu1 : ∀ c ∈ result₁, c ≠ '_' := by
    rw [hres1'']
    intro c hc
    rcases List.mem_cons.mp hc with rfl | hc
    · decide
    · rcases List.mem_cons.mp hc with rfl | hc
      · exact marker_ne_underscore b c hm
      · exact digit_ne_underscore b c (caseTail_digits b _ n' hb c hc)
  have hrt : resultTextOf (pySlice src s e) result₁ (some b) = result₁ := by
    unfold resultTextOf
    rw [underscoreNegIdx_nil _ hnu]
    rfl
  have hd1expr : d1.expr = pySlice src s e := by rw [hd1]; rfl
  have hd1text : d1.resultText = result₁ := by rw [hd1]; exact hrt
  have hpfx : prefixLenOf result₁ (some b) = 2 := by
    rw [hres1'']
    rcases hb with rfl | rfl | rfl <;> rfl
  have hclen : (caseTail b (pySlice src s e) n').length = (renderNat b n').length :=
    caseTail_length b _ n'
  have hLr : e - index ≤ (renderNat b n').length := by
    have hpow : b ^ (e - index - 1) ≤ n' := by
      rw [hn']; exact Nat.le_add_left _ _
    have := renderNat_length_lb b n' (e - index - 1) hb2 hpow
    omega
  have hR1len : result₁.length = 2 + (caseTail b (pySlice src s e) n').length := by
    rw [hres1'']; simp; omega
  have hoffset : d1.offset =
      (result₁.length : Int) - ((pySlice src s e).length : Int) := by
    rw [hd1]
    show clampOffset index s
      (((resultTextOf (pySlice src s e) result₁ (some b)).length : Int) -
        ((pySlice src s e).length : Int)) (prefixLenOf result₁ (some b)) = _
    rw [hrt, hpfx]
    unfold clampOffset
    rw [if_neg (by
      rw [hR1len, hclen, hexprlen]
      omega)]
  have hline : d1.line = src.take s ++ result₁ ++ src.drop e := by
    rw [hd1]
    show src.take s ++ resultTextOf (pySlice src s e) result₁ (some b) ++ src.drop e = _
    rw [hrt]
  -- second call
  rw [hd1text] at hg2
  rw [hline] at hg2 h2
  obtain ⟨s₂, e₂, bopt₂, result₂, exponent₂, precUsed₂, hg2', hr2, hd2⟩ :=
    increment_done_shape st1 st2 (src.take s ++ result₁ ++ src.drop e) toks2 j (-1) d2 h2
  rw [hg2] at hg2'
  obtain ⟨rfl, rfl, rfl⟩ : s = s₂ ∧ s + result₁.length = e₂ ∧ (some b : Option ℕ) = bopt₂ := by
    simpa using hg2'
  have hAlen : (src.take s).length = s := by
    rw [List.length_take]; omega
  have hexpr2 : pySlice (src.take s ++ result₁ ++ src.drop e) s (s + result₁.length) =
      result₁ := pySlice_splice _ _ _ s hAlen
  have hT2 : pySlice (src.take s ++ result₁ ++ src.drop e) s (s + result₁.length) ≠
      trueL := by
    rw [hexpr2, hres1'']; simp [trueL]
  have hF2 : pySlice (src.take s ++ result₁ ++ src.drop e) s (s + result₁.length) ≠
      falseL := by
    rw [hexpr2, hres1'']; simp [falseL]
  obtain ⟨hst2, hprec2, hex2, v₂, hpv₂, hres2⟩ :=
    intBranch_ok_values st1 st2 _ b j s (s + result₁.length) (-1) result₂ exponent₂
      precUsed₂ hb hr2 hT2 hF2
  have hparse2 : parseIntLit
      (pySlice (src.take s ++ result₁ ++ src.drop e) s (s + result₁.length)) =
      some ((n' : ℕ) : Int) := by
    rw [hexpr2, hres1'',
      parseIntLit_prefixed b m _ hm
        (digits_no_underscore b _ (caseTail_digits b _ n' hb)),
      caseTail_parse b _ n' hb]
    rfl
  rw [hparse2] at hpv₂
  injection hpv₂ with hv₂
  subst hv₂
  have hcount2 : pyCount
      ((pySlice (src.take s ++ result₁ ++ src.drop e) s (s + result₁.length)).drop j)
      '_' = 0 := by
    rw [hexpr2]
    exact pyCount_eq_zero _ _ (fun x hx => hnu1 x (List.drop_subset _ _ hx))
  have hjj : (j : Int) =
      (index : Int) + ((result₁.length : Int) - ((pySlice src s e).length : Int)) := by
    rw [hj, hoffset]
  have hexpVal2 : intExponent
      (pySlice (src.take s ++ result₁ ++ src.drop e) s (s + result₁.length)) j
      (s + result₁.length) = (e : Int) - index - 1 := by
    unfold intExponent
    rw [hcount2, hexprlen] at *
    rw [hexprlen] at hjj
    omega
  have htoNat2 : (intExponent
      (pySlice (src.take s ++ result₁ ++ src.drop e) s (s + result₁.length)) j
      (s + result₁.length)).toNat = e - index - 1 := by
    rw [hexpVal2]; omega
  have hres2' : result₂ = '0' :: m ::
      caseTail b (pySlice (src.take s ++ result₁ ++ src.drop e) s (s + result₁.length))
        v := by
    rw [hres2, htoNat2,
      show ((n' : ℕ) : Int) + (-1) * (b : Int) ^ (e - index - 1) = ((v : ℕ) : Int) from by
        push_cast [hn']; ring,
      intRender_eq_caseTail b _ _ hb (Int.natCast_nonneg _), Int.toNat_natCast,
      hexpr2, hres1'']
    rfl
  have hnu2 : ∀ c ∈ pySlice (src.take s ++ result₁ ++ src.drop e) s
      (s + result₁.length), c ≠ '_' := by
    rw [hexpr2]; exact hnu1
  have hrt2 : resultTextOf
      (pySlice (src.take s ++ result₁ ++ src.drop e) s (s + result₁.length))
      result₂ (some b) = result₂ := by
    unfold resultTextOf
    rw [underscoreNegIdx_nil _ hnu2]
    rfl
  have hd2text : d2.resultText = result₂ := by rw [hd2]; exact hrt2
  have hfinal : parseIntLit result₂ = some ((v : ℕ) : Int) := by
    rw [hres2',
      parseIntLit_prefixed b m _ hm
        (digits_no_underscore b _ (caseTail_digits b _ v hb)),
      caseTail_parse b _ v hb]
    rfl
  refine ⟨?_, ?_⟩
  · rw [hd2text, hfinal, hd1expr, hparse]
  · rw [hd1expr, hparse]
    rfl

/-- Token list for the line `0x1f`. -/
def toksC6a : List Tok :=
  [⟨TokType.NUMBER, ("0x1f").toList, 0, 4⟩, ⟨TokType.OTHER, [], 4, 5⟩]

/-- Token list for the line `0x20`. -/
def toksC6b : List Tok :=
  [⟨TokType.NUMBER, ("0x20").toList, 0, 4⟩, ⟨TokType.OTHER, [], 4, 5⟩]

/-- The details record of incrementing `0x1f` at index 3. -/
def wDetC6a : IncDetails :=
  ⟨0, 4, some 16, ("0x1f").toList, 0, 28, ("0x20").toList, ("0x20").toList, 2, 0, 0,
   ("0x20").toList⟩

/-- The details record of decrementing `0x20` at index 3. -/
def wDetC6b : IncDetails :=
  ⟨0, 4, some 16, ("0x20").toList, 0, 28, ("0x1F").toList, ("0x1F").toList, 2, 0, 0,
   ("0x1F").toList⟩

/-- Witness for the amended C6: `0x1f` incremented at index 3 becomes
`0x20` with offset 0, and decrementing `0x20` at index 3 restores the
value 31. -/
theorem roundtrip_amended_witness :
    parseIntLit wDetC6b.resultText = parseIntLit wDetC6a.expr ∧
      (parseIntLit wDetC6a.expr).isSome = true :=
  roundtrip_amended ⟨28, 7⟩ ⟨28, 7⟩ ⟨28, 7⟩ (("0x1f").toList) toksC6a toksC6b
    3 3 0 4 16 'x' (['1', 'f']) wDetC6a wDetC6b
    (by decide) (by decide) (by decide) (by decide) (by decide) (by decide)
    (by decide) (by decide) (by decide) (by decide) (by decide) (by decide)
    (by decide)

/-- The details record of incrementing `1.0` at index 2 (for the C7
witness). -/
def wDetC7 : IncDetails :=
  ⟨0, 3, some 10, ("1.0").toList, -1, 28, ("1.1").toList, ("1.1").toList, 0, 0, 0,
   ("1.1").toList⟩

/-- Token list for the line `1.0` (for the C7 witness). -/
def toksC7b : List Tok :=
  [⟨TokType.NUMBER, ("1.0").toList, 0, 3⟩, ⟨TokType.OTHER, [], 3, 4⟩]

/-- Witness for the amended C7: incrementing `1.0` at index 2 with stored
precision 28. -/
theorem prec_amended_witness :
    (⟨28, 7⟩ : PyState).modulePrec ≤ (⟨28, 7⟩ : PyState).modulePrec ∧
      (IncOutcome.done wDetC7 = IncOutcome.done wDetC7 → wDetC7.base = some 10 →
        wDetC7.expr.length ≤ wDetC7.precUsed ∧
          (⟨28, 7⟩ : PyState).modulePrec = wDetC7.precUsed ∧
          ((⟨28, 7⟩ : PyState).modulePrec < wDetC7.expr.length →
            wDetC7.precUsed = wDetC7.expr.length + 5) ∧
          (wDetC7.expr.length ≤ (⟨28, 7⟩ : PyState).modulePrec →
            wDetC7.precUsed = (⟨28, 7⟩ : PyState).modulePrec)) :=
  prec_amended ⟨28, 7⟩ ⟨28, 7⟩ (("1.0").toList) toksC7b 2 1
    (IncOutcome.done wDetC7) wDetC7 (by decide)

end DigitInc
